import Mathlib

/-!
Verification of the ImageGridOptimizer collage engine.

The Rust sources (`src/packing.rs`, `src/ga.rs`, `src/main.rs`) are embedded
shallowly: machine integers (`u32`, `usize`, non-negative `i32` packer
coordinates) become `Nat`; `f64` arithmetic in the fitness evaluator and the
random draws become `ℚ`; the `rand` RNG is an explicit stream of draws threaded
through every function; Rust panics become `Except` errors.
-/

/-- Placement rectangle, as `rect_packer::Rect`.  The packer only ever
produces non-negative coordinates, so the `i32` fields are embedded as `Nat`. -/
structure Rect where
  x : Nat
  y : Nat
  width : Nat
  height : Nat
deriving DecidableEq, Repr

/-- Point membership in the half-open pixel region of a rectangle. -/
def RectMem (r : Rect) (p : Nat × Nat) : Prop :=
  r.x ≤ p.1 ∧ p.1 < r.x + r.width ∧ r.y ≤ p.2 ∧ p.2 < r.y + r.height

/-- Two rectangles have empty intersection. -/
def RectDisjoint (a b : Rect) : Prop :=
  ∀ p : Nat × Nat, ¬ (RectMem a p ∧ RectMem b p)

theorem rectDisjoint_of_sep {a b : Rect}
    (h : a.x + a.width ≤ b.x ∨ b.x + b.width ≤ a.x ∨
         a.y + a.height ≤ b.y ∨ b.y + b.height ≤ a.y) :
    RectDisjoint a b := by
  intro p hp
  rcases hp with ⟨hm1, hm2⟩
  unfold RectMem at hm1 hm2
  omega

/-- `PADDING_SIZE` from `src/packing.rs`. -/
def PADDING_SIZE : Nat := 5

/-- State of one `rect_packer::Packer` instance.
Modelled from the spec: the crate is an external collaborator, described as a
skyline/shelf packer that, for each image in input order, finds the
lowest-and-leftmost free region of size at least (width+padding,
height+padding), reports the `Rect` with padding excluded, and advances the
structure.  We realise this as a shelf discipline: `shelfX` is the next free x
in the currently open shelf, `shelfY` the shelf's top coordinate, and `shelfH`
the shelf's committed height (max placed height plus padding). -/
structure PackerState where
  width : Nat
  height : Nat
  pad : Nat
  shelfX : Nat
  shelfY : Nat
  shelfH : Nat
deriving DecidableEq, Repr

/-- Modelled from the spec: one `Packer::pack(w, h, false)` call.  Places at
the cursor of the open shelf when the rectangle fits the canvas budget there,
otherwise opens a fresh shelf directly above, otherwise reports failure. -/
def packOne (st : PackerState) (w h : Nat) : Option (Rect × PackerState) :=
  if st.shelfX + w ≤ st.width ∧ st.shelfY + h ≤ st.height then
    some (⟨st.shelfX, st.shelfY, w, h⟩,
      { st with shelfX := st.shelfX + w + st.pad, shelfH := max st.shelfH (h + st.pad) })
  else if w ≤ st.width ∧ st.shelfY + st.shelfH + h ≤ st.height then
    some (⟨0, st.shelfY + st.shelfH, w, h⟩,
      { st with shelfX := w + st.pad, shelfY := st.shelfY + st.shelfH, shelfH := h + st.pad })
  else none

/-- Fresh packer for a `Config` with `border_padding = 0` and
`rectangle_padding = pad` (`Packer::new` in `pack_images`). -/
def initPacker (w h pad : Nat) : PackerState :=
  ⟨w, h, pad, 0, 0, 0⟩

/-- The placement loop of `pack_images` (`for id in image_ids` in
`src/packing.rs`): packs each id in order, accumulating placements and the
running maxima of `rect.x + rect.width` and `rect.y + rect.height`; returns
`none` as soon as one image fails to fit (`all_fit = false`). -/
def packGo (dims : Nat → Nat × Nat) :
    PackerState → List (Nat × Rect) → Nat → Nat → List Nat →
    Option (List (Nat × Rect) × Nat × Nat)
  | _, acc, mw, mh, [] => some (acc, mw, mh)
  | st, acc, mw, mh, id :: rest =>
    match packOne st (dims id).1 (dims id).2 with
    | some (r, st') =>
      packGo dims st' (acc ++ [(id, r)])
        (max mw (r.x + r.width)) (max mh (r.y + r.height)) rest
    | none => none

/-- One attempt of `pack_images` at a fixed canvas budget. -/
def packAttempt (dims : Nat → Nat × Nat) (bw bh : Nat) (ids : List Nat) :
    Option (List (Nat × Rect) × Nat × Nat) :=
  packGo dims (initPacker bw bh PADDING_SIZE) [] 0 0 ids

/-- Canvas budget of attempt `k`: `estimated * scale_factor` truncated, with
`scale_factor = 1.2 ^ k`.  The `f64` product is embedded exactly as the
rational `6^k / 5^k`, truncated to `Nat` as the `as i32` cast truncates. -/
def packBudget (est k : Nat) : Nat :=
  est * 6 ^ k / 5 ^ k

/-- `max_attempts` in `pack_images`. -/
def max_attempts : Nat := 5

/-- `total_area` in `pack_images`: the summed pixel area of the selected
images. -/
def totalArea (ids : List Nat) (dims : Nat → Nat × Nat) : Nat :=
  (ids.map (fun i => (dims i).1 * (dims i).2)).sum

/-- `⌊√n⌋`: the largest `k ≤ n` with `k * k ≤ n`.  This embeds
`(total_area as f64).sqrt() as u32`, which truncates the exact square root.
Defined by enumeration so that it reduces inside the kernel. -/
def isqrt (n : Nat) : Nat :=
  ((List.range (n + 1)).filter (fun k => k * k ≤ n)).foldr max 0

/-- The retry loop of `pack_images`: attempt `k`, then `k+1`, ... while
attempts remain; on exhaustion return `(vec![], 0, 0)`. -/
def packAttempts (dims : Nat → Nat × Nat) (ids : List Nat) (est : Nat) :
    Nat → Nat → List (Nat × Rect) × Nat × Nat
  | _, 0 => ([], 0, 0)
  | k, remaining + 1 =>
    match packAttempt dims (packBudget est k) (packBudget est k) ids with
    | some res => res
    | none => packAttempts dims ids est (k + 1) remaining

/-- `pack_images` from `src/packing.rs`.  The image map is embedded as a total
dimension function `dims` (callers only pass ids present in the corpus, where
`image_map.get(id).unwrap()` cannot panic).  With `DESIRED_ASPECT_RATIO = 1.0`
the estimated width and height both equal `⌊sqrt(total_area)⌋`, here `isqrt`. -/
def pack_images (ids : List Nat) (dims : Nat → Nat × Nat) :
    List (Nat × Rect) × Nat × Nat :=
  if ids.isEmpty then ([], 0, 0)
  else
    packAttempts dims ids (isqrt (totalArea ids dims)) 0 max_attempts

/-! ### Shelf invariant and non-overlap -/

/-- Every already placed rectangle sits either in a closed shelf strictly below
the open one, or inside the open shelf left of the cursor and below the shelf's
committed height. -/
def inShelves (st : PackerState) (r : Rect) : Prop :=
  r.y + r.height ≤ st.shelfY ∨
  (r.y = st.shelfY ∧ r.x + r.width ≤ st.shelfX ∧
   r.y + r.height ≤ st.shelfY + st.shelfH)

theorem packOne_disjoint {st : PackerState} {w h : Nat} {r : Rect}
    {st' : PackerState} (hp : packOne st w h = some (r, st'))
    {r0 : Rect} (h0 : inShelves st r0) : RectDisjoint r0 r := by
  unfold inShelves at h0
  unfold packOne at hp
  split at hp
  · simp only [Option.some.injEq, Prod.mk.injEq] at hp
    rcases hp with ⟨rfl, rfl⟩
    refine rectDisjoint_of_sep ?_
    dsimp only
    omega
  · split at hp
    · simp only [Option.some.injEq, Prod.mk.injEq] at hp
      rcases hp with ⟨rfl, rfl⟩
      refine rectDisjoint_of_sep ?_
      dsimp only
      omega
    · exact Option.noConfusion hp

theorem packOne_preserve {st : PackerState} {w h : Nat} {r : Rect}
    {st' : PackerState} (hp : packOne st w h = some (r, st'))
    {r0 : Rect} (h0 : inShelves st r0) : inShelves st' r0 := by
  unfold inShelves at h0 ⊢
  unfold packOne at hp
  split at hp
  · simp only [Option.some.injEq, Prod.mk.injEq] at hp
    rcases hp with ⟨rfl, rfl⟩
    dsimp only
    omega
  · split at hp
    · simp only [Option.some.injEq, Prod.mk.injEq] at hp
      rcases hp with ⟨rfl, rfl⟩
      dsimp only
      omega
    · exact Option.noConfusion hp

theorem packOne_new {st : PackerState} {w h : Nat} {r : Rect}
    {st' : PackerState} (hp : packOne st w h = some (r, st')) :
    inShelves st' r := by
  unfold inShelves
  unfold packOne at hp
  split at hp
  · simp only [Option.some.injEq, Prod.mk.injEq] at hp
    rcases hp with ⟨rfl, rfl⟩
    dsimp only
    omega
  · split at hp
    · simp only [Option.some.injEq, Prod.mk.injEq] at hp
      rcases hp with ⟨rfl, rfl⟩
      dsimp only
      omega
    · exact Option.noConfusion hp

/-- The pairwise-disjointness predicate on placement lists. -/
def PlacedDisjoint (l : List (Nat × Rect)) : Prop :=
  List.Pairwise (fun a b => RectDisjoint a.2 b.2) l

theorem packGo_pairwise (dims : Nat → Nat × Nat) :
    ∀ (l : List Nat) (st : PackerState) (acc : List (Nat × Rect)) (mw mh : Nat)
      (res : List (Nat × Rect) × Nat × Nat),
      (∀ pr ∈ acc, inShelves st pr.2) → PlacedDisjoint acc →
      packGo dims st acc mw mh l = some res → PlacedDisjoint res.1 := by
  intro l
  induction l with
  | nil =>
    intro st acc mw mh res _ hpw hgo
    simp only [packGo, Option.some.injEq] at hgo
    rcases hgo with rfl
    exact hpw
  | cons id rest ih =>
    intro st acc mw mh res hinv hpw hgo
    simp only [packGo] at hgo
    rcases hone : packOne st (dims id).1 (dims id).2 with _ | ⟨r, st'⟩
    · rw [hone] at hgo; exact Option.noConfusion hgo
    · rw [hone] at hgo
      refine ih st' (acc ++ [(id, r)]) _ _ res ?_ ?_ hgo
      · intro pr hpr
        rcases List.mem_append.1 hpr with hpr | hpr
        · exact packOne_preserve hone (hinv pr hpr)
        · simp only [List.mem_singleton] at hpr
          rcases hpr with rfl
          exact packOne_new hone
      · refine List.pairwise_append.2 ⟨hpw, List.pairwise_singleton _ _, ?_⟩
        intro a ha b hb
        simp only [List.mem_singleton] at hb
        rcases hb with rfl
        exact packOne_disjoint hone (hinv a ha)

theorem packAttempt_pairwise {dims : Nat → Nat × Nat} {bw bh : Nat}
    {ids : List Nat} {res : List (Nat × Rect) × Nat × Nat}
    (h : packAttempt dims bw bh ids = some res) : PlacedDisjoint res.1 :=
  packGo_pairwise dims ids _ [] 0 0 res (by simp) List.Pairwise.nil h

theorem packAttempts_pairwise (dims : Nat → Nat × Nat) (ids : List Nat)
    (est : Nat) : ∀ (rem k : Nat),
    PlacedDisjoint (packAttempts dims ids est k rem).1 := by
  intro rem
  induction rem with
  | zero => intro k; simp only [packAttempts]; exact List.Pairwise.nil
  | succ n ih =>
    intro k
    simp only [packAttempts]
    rcases hA : packAttempt dims (packBudget est k) (packBudget est k) ids with
      _ | res
    · exact ih (k + 1)
    · exact packAttempt_pairwise hA

theorem pack_images_placed_disjoint (ids : List Nat)
    (dims : Nat → Nat × Nat) : PlacedDisjoint (pack_images ids dims).1 := by
  unfold pack_images
  split
  · exact List.Pairwise.nil
  · exact packAttempts_pairwise dims ids _ max_attempts 0

/-- Claim C1: every layout returned by `pack_images` has pairwise disjoint
placed rectangles — no two placements share a pixel. -/
theorem pack_images_no_overlap (ids : List Nat) (dims : Nat → Nat × Nat) :
    PlacedDisjoint (pack_images ids dims).1 :=
  pack_images_placed_disjoint ids dims

/-! ### All-or-nothing packing (C2) -/

theorem packGo_ids (dims : Nat → Nat × Nat) :
    ∀ (l : List Nat) (st : PackerState) (acc : List (Nat × Rect)) (mw mh : Nat)
      (res : List (Nat × Rect) × Nat × Nat),
      packGo dims st acc mw mh l = some res →
      res.1.map Prod.fst = acc.map Prod.fst ++ l := by
  intro l
  induction l with
  | nil =>
    intro st acc mw mh res hgo
    simp only [packGo, Option.some.injEq] at hgo
    rcases hgo with rfl
    simp
  | cons id rest ih =>
    intro st acc mw mh res hgo
    simp only [packGo] at hgo
    rcases hone : packOne st (dims id).1 (dims id).2 with _ | ⟨r, st'⟩
    · rw [hone] at hgo; exact Option.noConfusion hgo
    · rw [hone] at hgo
      have := ih st' (acc ++ [(id, r)]) _ _ res hgo
      simpa using this

theorem packAttempt_ids {dims : Nat → Nat × Nat} {bw bh : Nat}
    {ids : List Nat} {res : List (Nat × Rect) × Nat × Nat}
    (h : packAttempt dims bw bh ids = some res) :
    res.1.map Prod.fst = ids := by
  have := packGo_ids dims ids _ [] 0 0 res h
  simpa using this

theorem packAttempts_cases (dims : Nat → Nat × Nat) (ids : List Nat)
    (est : Nat) : ∀ (rem k : Nat),
    packAttempts dims ids est k rem = ([], 0, 0) ∨
    ∃ j, k ≤ j ∧ j < k + rem ∧
      packAttempt dims (packBudget est j) (packBudget est j) ids =
        some (packAttempts dims ids est k rem) := by
  intro rem
  induction rem with
  | zero => intro k; exact Or.inl rfl
  | succ n ih =>
    intro k
    simp only [packAttempts]
    rcases hA : packAttempt dims (packBudget est k) (packBudget est k) ids with
      _ | res
    · rcases ih (k + 1) with h | ⟨j, hj1, hj2, hj3⟩
      · exact Or.inl h
      · exact Or.inr ⟨j, by omega, by omega, hj3⟩
    · exact Or.inr ⟨k, le_refl k, by omega, hA⟩

/-- Claim C2: for a non-empty id list, `pack_images` is all-or-nothing — it
either returns exactly one placement per input id, in input order, produced by
one of at most `max_attempts = 5` attempts whose square canvas budget at
attempt `j` is `⌊sqrt(total_area) * 1.2^j⌋` (embedded as
`packBudget est j = est * 6^j / 5^j`), or it returns no placements with canvas
width 0 and height 0; it never returns a strict subset of the requested ids. -/
theorem pack_images_all_or_nothing (ids : List Nat) (dims : Nat → Nat × Nat)
    (hne : ids ≠ []) :
    pack_images ids dims = ([], 0, 0) ∨
    ((pack_images ids dims).1.map Prod.fst = ids ∧
     ∃ j < max_attempts,
       packAttempt dims (packBudget (isqrt (totalArea ids dims)) j)
           (packBudget (isqrt (totalArea ids dims)) j) ids =
         some (pack_images ids dims)) := by
  unfold pack_images
  split
  · next h => exact absurd (List.isEmpty_iff.1 h) hne
  · rcases packAttempts_cases dims ids (isqrt (totalArea ids dims))
      max_attempts 0 with h | ⟨j, _, hj2, hj3⟩
    · exact Or.inl h
    · refine Or.inr ⟨?_, j, by omega, hj3⟩
      exact packAttempt_ids hj3

/-- Concrete corpus in which every image is 10 by 10 pixels. -/
def dimsTen : Nat → Nat × Nat := fun _ => (10, 10)

/-- Witness for C2: the singleton list `[0]` over `dimsTen` is non-empty and
packs to a full one-placement layout on the first attempt. -/
theorem pack_images_all_or_nothing_witness :
    ([0] : List Nat) ≠ [] ∧
    (pack_images [0] dimsTen = ([], 0, 0) ∨
     ((pack_images [0] dimsTen).1.map Prod.fst = [0] ∧
      ∃ j < max_attempts,
        packAttempt dimsTen (packBudget (isqrt (totalArea [0] dimsTen)) j)
            (packBudget (isqrt (totalArea [0] dimsTen)) j) [0] =
          some (pack_images [0] dimsTen))) :=
  ⟨by decide, pack_images_all_or_nothing [0] dimsTen (by decide)⟩

/-! ### Canvas bounds: every placement fits the reported tight canvas -/

theorem packGo_bounds (dims : Nat → Nat × Nat) :
    ∀ (l : List Nat) (st : PackerState) (acc : List (Nat × Rect)) (mw mh : Nat)
      (res : List (Nat × Rect) × Nat × Nat),
      packGo dims st acc mw mh l = some res →
      (∀ pr ∈ acc, pr.2.x + pr.2.width ≤ mw ∧ pr.2.y + pr.2.height ≤ mh) →
      ∀ pr ∈ res.1, pr.2.x + pr.2.width ≤ res.2.1 ∧
        pr.2.y + pr.2.height ≤ res.2.2 := by
  intro l
  induction l with
  | nil =>
    intro st acc mw mh res hgo hacc
    simp only [packGo, Option.some.injEq] at hgo
    rcases hgo with rfl
    exact hacc
  | cons id rest ih =>
    intro st acc mw mh res hgo hacc
    simp only [packGo] at hgo
    rcases hone : packOne st (dims id).1 (dims id).2 with _ | ⟨r, st'⟩
    · rw [hone] at hgo; exact Option.noConfusion hgo
    · rw [hone] at hgo
      refine ih st' (acc ++ [(id, r)]) _ _ res hgo ?_
      intro pr hpr
      rcases List.mem_append.1 hpr with hpr | hpr
      · have := hacc pr hpr
        constructor
        · exact le_trans this.1 (le_max_left _ _)
        · exact le_trans this.2 (le_max_left _ _)
      · simp only [List.mem_singleton] at hpr
        rcases hpr with rfl
        exact ⟨le_max_right _ _, le_max_right _ _⟩

theorem packAttempts_bounds (dims : Nat → Nat × Nat) (ids : List Nat)
    (est : Nat) : ∀ (rem k : Nat),
    ∀ pr ∈ (packAttempts dims ids est k rem).1,
      pr.2.x + pr.2.width ≤ (packAttempts dims ids est k rem).2.1 ∧
      pr.2.y + pr.2.height ≤ (packAttempts dims ids est k rem).2.2 := by
  intro rem
  induction rem with
  | zero => intro k pr hpr; simp only [packAttempts] at hpr; exact absurd hpr (by simp)
  | succ n ih =>
    intro k
    simp only [packAttempts]
    rcases hA : packAttempt dims (packBudget est k) (packBudget est k) ids with
      _ | res
    · exact ih (k + 1)
    · exact packGo_bounds dims ids _ [] 0 0 res hA (by simp)

theorem pack_images_bounds (ids : List Nat) (dims : Nat → Nat × Nat) :
    ∀ pr ∈ (pack_images ids dims).1,
      pr.2.x + pr.2.width ≤ (pack_images ids dims).2.1 ∧
      pr.2.y + pr.2.height ≤ (pack_images ids dims).2.2 := by
  unfold pack_images
  split
  · intro pr hpr; exact absurd hpr (by simp)
  · exact packAttempts_bounds dims ids _ max_attempts 0

/-! ### Areas of disjoint placements are bounded by the canvas area -/

/-- The pixel set of a rectangle as a `Finset`. -/
def Rect.finpts (r : Rect) : Finset (Nat × Nat) :=
  Finset.Ico r.x (r.x + r.width) ×ˢ Finset.Ico r.y (r.y + r.height)

theorem Rect.card_finpts (r : Rect) : r.finpts.card = r.width * r.height := by
  simp [Rect.finpts, Nat.card_Ico, Nat.add_sub_cancel_left]

theorem Rect.mem_finpts {r : Rect} {p : Nat × Nat} :
    p ∈ r.finpts ↔ RectMem r p := by
  simp only [Rect.finpts, Finset.mem_product, Finset.mem_Ico, RectMem]
  tauto

theorem sum_areas_le_box :
    ∀ (l : List Rect) (box : Finset (Nat × Nat)),
      List.Pairwise RectDisjoint l → (∀ r ∈ l, r.finpts ⊆ box) →
      (l.map (fun r => r.width * r.height)).sum ≤ box.card := by
  intro l
  induction l with
  | nil => intro box _ _; simp
  | cons r t ih =>
    intro box hd hs
    have hr : r.finpts ⊆ box := hs r (List.mem_cons_self r t)
    have hcard : r.finpts.card ≤ box.card := Finset.card_le_card hr
    have ht : ∀ r' ∈ t, r'.finpts ⊆ box \ r.finpts := by
      intro r' hr' p hp
      refine Finset.mem_sdiff.2 ⟨hs r' (List.mem_cons_of_mem r hr') hp, ?_⟩
      intro hpr
      exact (List.pairwise_cons.1 hd).1 r' hr' p
        ⟨Rect.mem_finpts.1 hpr, Rect.mem_finpts.1 hp⟩
    have hrec := ih (box \ r.finpts) (List.pairwise_cons.1 hd).2 ht
    have hsd : (box \ r.finpts).card = box.card - r.finpts.card :=
      Finset.card_sdiff hr
    simp only [List.map_cons, List.sum_cons]
    rw [← Rect.card_finpts]
    omega

/-- Width of the tight canvas reported by `pack_images`. -/
def canvasW (ids : List Nat) (dims : Nat → Nat × Nat) : Nat :=
  (pack_images ids dims).2.1

/-- Height of the tight canvas reported by `pack_images`. -/
def canvasH (ids : List Nat) (dims : Nat → Nat × Nat) : Nat :=
  (pack_images ids dims).2.2

/-- `total_packed_area` of a `pack_images` result (summed rect areas). -/
def placedAreaSum (ids : List Nat) (dims : Nat → Nat × Nat) : Nat :=
  ((pack_images ids dims).1.map (fun pr => pr.2.width * pr.2.height)).sum

theorem placedAreaSum_le (ids : List Nat) (dims : Nat → Nat × Nat) :
    placedAreaSum ids dims ≤ canvasW ids dims * canvasH ids dims := by
  have hd := pack_images_placed_disjoint ids dims
  have hb := pack_images_bounds ids dims
  have hmap :
      placedAreaSum ids dims =
        (((pack_images ids dims).1.map Prod.snd).map
          (fun r => r.width * r.height)).sum := by
    simp [placedAreaSum, List.map_map]
    rfl
  rw [hmap]
  have hbox := sum_areas_le_box ((pack_images ids dims).1.map Prod.snd)
    (Finset.Ico 0 (canvasW ids dims) ×ˢ Finset.Ico 0 (canvasH ids dims))
    (by
      rw [List.pairwise_map]
      exact hd)
    (by
      intro r hr p hp
      rcases List.mem_map.1 hr with ⟨pr, hpr, rfl⟩
      have hbnd := hb pr hpr
      have hmem := Rect.mem_finpts.1 hp
      unfold RectMem at hmem
      refine Finset.mem_product.2 ⟨Finset.mem_Ico.2 ?_, Finset.mem_Ico.2 ?_⟩
      · exact ⟨Nat.zero_le _, by unfold canvasW; omega⟩
      · exact ⟨Nat.zero_le _, by unfold canvasH; omega⟩)
  calc (((pack_images ids dims).1.map Prod.snd).map
          (fun r => r.width * r.height)).sum
      ≤ (Finset.Ico 0 (canvasW ids dims) ×ˢ
          Finset.Ico 0 (canvasH ids dims)).card := hbox
    _ = canvasW ids dims * canvasH ids dims := by
        simp [Nat.card_Ico]

/-! ### The fitness evaluator (`src/ga.rs`) -/

/-- `DESIRED_ASPECT_RATIO` from `src/packing.rs`, embedded in `ℚ`. -/
def DESIRED_ASPECT_RATIO : ℚ := 1

/-- A GA `Individual` from `src/ga.rs`: the id list, the cached fitness
(`f64`, embedded as `ℚ`), and the cached layout. -/
structure Individual where
  image_ids : List Nat
  fitness : ℚ
  packed_layout : Option (List (Nat × Rect) × Nat × Nat)
deriving DecidableEq, Repr

/-- `evaluate_individual` from `src/ga.rs`.  `f64` arithmetic is embedded in
`ℚ` (`9999.9` is `99999/10`); `saturating_sub` is `Nat` subtraction. -/
def evaluate_individual (indiv : Individual) (dims : Nat → Nat × Nat) :
    Individual :=
  let res := pack_images indiv.image_ids dims
  if res.1.isEmpty ∨ res.2.1 = 0 ∨ res.2.2 = 0 then
    { indiv with fitness := 0, packed_layout := none }
  else
    let collage_area : Nat := res.2.1 * res.2.2
    let total_packed_area : Nat :=
      (res.1.map (fun pr => pr.2.width * pr.2.height)).sum
    let free_area : Nat := collage_area - total_packed_area
    let free_area_percentage : ℚ :=
      ((free_area : ℚ) / (collage_area : ℚ)) * 100
    let aspect_ratio : ℚ :=
      if res.2.2 = 0 then 99999 / 10 else (res.2.1 : ℚ) / (res.2.2 : ℚ)
    let aspect_ratio_diff : ℚ := |aspect_ratio - DESIRED_ASPECT_RATIO|
    let image_count_factor : ℚ := (indiv.image_ids.length : ℚ)
    { indiv with
      fitness :=
        image_count_factor / (1 + free_area_percentage + aspect_ratio_diff * 10),
      packed_layout := some res }

/-- Claim C3: on a successful packing (non-empty placements, non-zero canvas),
the fitness is `image_count / (1 + free_pct + 10 * aspect_diff)` with
`free_pct = 100 * (canvas_area - placed_area) / canvas_area` and
`aspect_diff = |canvas_w / canvas_h - 1|`. -/
theorem evaluate_individual_fitness (indiv : Individual)
    (dims : Nat → Nat × Nat)
    (hpl : (pack_images indiv.image_ids dims).1 ≠ [])
    (hw : canvasW indiv.image_ids dims ≠ 0)
    (hh : canvasH indiv.image_ids dims ≠ 0) :
    (evaluate_individual indiv dims).fitness =
      (indiv.image_ids.length : ℚ) /
        (1 +
          100 *
            ((canvasW indiv.image_ids dims : ℚ) *
                (canvasH indiv.image_ids dims : ℚ) -
              (placedAreaSum indiv.image_ids dims : ℚ)) /
            ((canvasW indiv.image_ids dims : ℚ) *
              (canvasH indiv.image_ids dims : ℚ)) +
          10 *
            |(canvasW indiv.image_ids dims : ℚ) /
                (canvasH indiv.image_ids dims : ℚ) - 1|) := by
  have hle := placedAreaSum_le indiv.image_ids dims
  unfold canvasW at hw
  unfold canvasH at hh
  simp only [evaluate_individual]
  rw [if_neg (by
    simp only [List.isEmpty_iff]
    push_neg
    exact ⟨hpl, hw, hh⟩)]
  unfold DESIRED_ASPECT_RATIO
  rw [if_neg hh]
  have hsub :
      ((canvasW indiv.image_ids dims * canvasH indiv.image_ids dims -
          placedAreaSum indiv.image_ids dims : Nat) : ℚ) =
        (canvasW indiv.image_ids dims : ℚ) *
            (canvasH indiv.image_ids dims : ℚ) -
          (placedAreaSum indiv.image_ids dims : ℚ) := by
    rw [Nat.cast_sub hle]
    push_cast
    ring
  unfold canvasW canvasH placedAreaSum at hsub
  rw [hsub]
  unfold canvasW canvasH placedAreaSum
  rw [Nat.cast_mul]
  ring

/-- Witness individual holding the single image id 0. -/
def indivZero : Individual := ⟨[0], 0, none⟩

/-- Witness for C3 at `indivZero` over `dimsTen`: the packing succeeds and the
fitness formula evaluates there. -/
theorem evaluate_individual_fitness_witness :
    (pack_images indivZero.image_ids dimsTen).1 ≠ [] ∧
    canvasW indivZero.image_ids dimsTen ≠ 0 ∧
    canvasH indivZero.image_ids dimsTen ≠ 0 ∧
    (evaluate_individual indivZero dimsTen).fitness =
      (indivZero.image_ids.length : ℚ) /
        (1 +
          100 *
            ((canvasW indivZero.image_ids dimsTen : ℚ) *
                (canvasH indivZero.image_ids dimsTen : ℚ) -
              (placedAreaSum indivZero.image_ids dimsTen : ℚ)) /
            ((canvasW indivZero.image_ids dimsTen : ℚ) *
              (canvasH indivZero.image_ids dimsTen : ℚ)) +
          10 *
            |(canvasW indivZero.image_ids dimsTen : ℚ) /
                (canvasH indivZero.image_ids dimsTen : ℚ) - 1|) :=
  ⟨by decide, by decide, by decide,
    evaluate_individual_fitness indivZero dimsTen (by decide) (by decide)
      (by decide)⟩

/-- Claim C4: when packing yields no placements or a zero-area canvas,
`evaluate_individual` sets fitness to exactly 0 and the layout to `none`
(the evaluator is a total function: an unpackable candidate is scored, not
an error). -/
theorem evaluate_individual_unpackable (indiv : Individual)
    (dims : Nat → Nat × Nat)
    (h : (pack_images indiv.image_ids dims).1 = [] ∨
         canvasW indiv.image_ids dims = 0 ∨ canvasH indiv.image_ids dims = 0) :
    (evaluate_individual indiv dims).fitness = 0 ∧
    (evaluate_individual indiv dims).packed_layout = none := by
  unfold canvasW canvasH at h
  simp only [evaluate_individual]
  rw [if_pos (by
    simp only [List.isEmpty_iff]
    exact h)]
  exact ⟨rfl, rfl⟩

/-- Witness individual with an empty id list. -/
def indivEmpty : Individual := ⟨[], 0, none⟩

/-- Witness for C4 at the empty individual: packing returns no placements and
the evaluator scores it 0 with no layout. -/
theorem evaluate_individual_unpackable_witness :
    ((pack_images indivEmpty.image_ids dimsTen).1 = [] ∨
      canvasW indivEmpty.image_ids dimsTen = 0 ∨
      canvasH indivEmpty.image_ids dimsTen = 0) ∧
    (evaluate_individual indivEmpty dimsTen).fitness = 0 ∧
    (evaluate_individual indivEmpty dimsTen).packed_layout = none :=
  ⟨Or.inl (by decide),
    evaluate_individual_unpackable indivEmpty dimsTen (Or.inl (by decide))⟩

/-! ### The RNG model

`rand`'s generator is embedded as explicit streams of draws: `nats n` is the
`n`-th integer draw, `floats n` the `n`-th `gen::<f64>()` draw (as `ℚ`), and
`pos` the number of draws consumed.  Theorems quantify over all streams, so
they cover every random choice sequence. -/

structure Rng where
  nats : Nat → Nat
  floats : Nat → ℚ
  pos : Nat

/-- Draw one integer. -/
def Rng.next (r : Rng) : Nat × Rng :=
  (r.nats r.pos, ⟨r.nats, r.floats, r.pos + 1⟩)

/-- Draw one `f64` (`rng.gen::<f64>()`). -/
def Rng.nextFloat (r : Rng) : ℚ × Rng :=
  (r.floats r.pos, ⟨r.nats, r.floats, r.pos + 1⟩)

/-- `rng.gen_range(lo..=hi)` (inclusive): a value in `[lo, hi]` when
`lo ≤ hi`. -/
def genRangeIncl (lo hi : Nat) (r : Rng) : Nat × Rng :=
  (lo + (Rng.next r).1 % (hi + 1 - lo), (Rng.next r).2)

/-- `rng.gen_range(lo..hi)` (exclusive): a value in `[lo, hi)` when
`lo < hi`. -/
def genRange (lo hi : Nat) (r : Rng) : Nat × Rng :=
  (lo + (Rng.next r).1 % (hi - lo), (Rng.next r).2)

/-- `slice.choose(rng)`: `none` on an empty slice (no draw consumed),
otherwise a uniformly drawn element. -/
def chooseList {α : Type} (l : List α) (r : Rng) : Option α × Rng :=
  if l.isEmpty then (none, r)
  else (l[(Rng.next r).1 % l.length]?, (Rng.next r).2)

/-- Modelled from the spec: `slice.shuffle(rng)` from the external `rand`
crate, described as producing a random permutation ("a uniformly random subset
... shuffle-then-truncate").  Embedded as a selection shuffle: repeatedly draw
an index and move that element to the front of the remainder. -/
def shuffleGo {α : Type} : Nat → List α → Rng → List α × Rng
  | 0, _, r => ([], r)
  | fuel + 1, l, r =>
    match l with
    | [] => ([], r)
    | x :: xs =>
      let i := (Rng.next r).1 % (x :: xs).length
      let y := (x :: xs).getD i x
      let rest := (x :: xs).eraseIdx i
      let res := shuffleGo fuel rest (Rng.next r).2
      (y :: res.1, res.2)

/-- `slice.shuffle(rng)`. -/
def shuffle {α : Type} (l : List α) (r : Rng) : List α × Rng :=
  shuffleGo l.length l r

/-! ### Candidate generation and constraint enforcement (`src/ga.rs`)

The image corpus `all_images : List Nat` is the list of corpus ids
(`all_images.iter().map(|(id, _)| *id)`); `HashMap` keys are unique, so
corpus-id lists are assumed `Nodup` where it matters. -/

/-- `create_random_individual` from `src/ga.rs`. -/
def create_random_individual (all_images : List Nat)
    (min_images max_images : Nat) (r : Rng) : Individual × Rng :=
  let dr := genRangeIncl min_images max_images r
  let num_images := min dr.1 all_images.length
  let sh := shuffle all_images dr.2
  (⟨sh.1.take num_images, 0, none⟩, sh.2)

/-- First loop of `enforce_image_limits`: append a random unused corpus id
while below `min_images`, stopping when the corpus is exhausted. -/
def addLoop (all_images : List Nat) (min_images : Nat)
    (ids : List Nat) (r : Rng) : List Nat × Rng :=
  if _h : ids.length < min_images then
    if (all_images.filter (fun x => !(ids.contains x))).isEmpty then (ids, r)
    else
      match chooseList (all_images.filter (fun x => !(ids.contains x))) r with
      | (some new_id, r') => addLoop all_images min_images (ids ++ [new_id]) r'
      | (none, r') => (ids, r')
  else (ids, r)
termination_by min_images - ids.length
decreasing_by simp only [List.length_append, List.length_cons, List.length_nil]; omega

/-- Second loop of `enforce_image_limits`: remove a uniformly random id while
above `max_images`. -/
def removeLoop (max_images : Nat) (ids : List Nat) (r : Rng) :
    List Nat × Rng :=
  if _h : max_images < ids.length then
    removeLoop max_images (ids.eraseIdx ((Rng.next r).1 % ids.length)) (Rng.next r).2
  else (ids, r)
termination_by ids.length
decreasing_by
  have hmod : (Rng.next r).1 % ids.length < ids.length :=
    Nat.mod_lt _ (by omega)
  rw [List.length_eraseIdx, if_pos hmod]
  omega

/-- `enforce_image_limits` from `src/ga.rs`. -/
def enforce_image_limits (ids : List Nat) (all_images : List Nat)
    (min_images max_images : Nat) (r : Rng) : List Nat × Rng :=
  removeLoop max_images (addLoop all_images min_images ids r).1
    (addLoop all_images min_images ids r).2

/-- `Vec::dedup`: remove consecutive repeated elements. -/
def dedupAdj : List Nat → List Nat
  | [] => []
  | [x] => [x]
  | x :: y :: rest =>
    if x = y then dedupAdj (y :: rest) else x :: dedupAdj (y :: rest)

/-- `crossover` from `src/ga.rs`.  `Vec::sort` on `u32` is embedded as
`mergeSort` with `≤` (any sort of naturals produces the same list). -/
def crossover (parent1 parent2 : Individual) (all_images : List Nat)
    (min_images max_images : Nat) (r : Rng) : Individual × Rng :=
  if parent1.image_ids.length = 0 ∧ parent2.image_ids.length = 0 then
    (⟨[], 0, none⟩, r)
  else
    let c1 := genRangeIncl 0 parent1.image_ids.length r
    let c2 := genRangeIncl 0 parent2.image_ids.length c1.2
    let child_ids0 := parent1.image_ids.take c1.1 ++
      parent2.image_ids.drop c2.1
    let child_ids := dedupAdj (child_ids0.mergeSort (fun a b => decide (a ≤ b)))
    let er := enforce_image_limits child_ids all_images min_images max_images c2.2
    (⟨er.1, 0, none⟩, er.2)

/-- `mutate` from `src/ga.rs`.  The `f64` thresholds `0.33` and `0.66` are
embedded as the rationals `33/100` and `66/100`. -/
def mutate (indiv : Individual) (all_images : List Nat)
    (min_images max_images : Nat) (r : Rng) : Individual × Rng :=
  if indiv.image_ids.isEmpty then (indiv, r)
  else
    let roll := (Rng.nextFloat r).1
    let r1 := (Rng.nextFloat r).2
    let step :=
      if roll < 33/100 ∧ indiv.image_ids.length < max_images then
        match chooseList (all_images.filter (fun x => !(indiv.image_ids.contains x))) r1 with
        | (some new_id, r') => (indiv.image_ids ++ [new_id], r')
        | (none, r') => (indiv.image_ids, r')
      else if roll < 66/100 ∧ min_images < indiv.image_ids.length then
        (indiv.image_ids.eraseIdx ((Rng.next r1).1 % indiv.image_ids.length),
         (Rng.next r1).2)
      else
        if all_images.isEmpty then (indiv.image_ids, r1)
        else
          match chooseList (all_images.filter (fun x => !(indiv.image_ids.contains x)))
              (Rng.next r1).2 with
          | (some new_id, r'') =>
            (indiv.image_ids.set ((Rng.next r1).1 % indiv.image_ids.length) new_id, r'')
          | (none, r'') => (indiv.image_ids, r'')
    ({ indiv with
        image_ids :=
          (enforce_image_limits step.1 all_images min_images max_images step.2).1 },
     (enforce_image_limits step.1 all_images min_images max_images step.2).2)

/-! ### Permutation and nodup facts for the GA operators -/

theorem nodup_subset_length {l l' : List Nat} (h : l.Nodup) (hs : l ⊆ l') :
    l.length ≤ l'.length := by
  have h1 : l.toFinset.card = l.length := List.toFinset_card_of_nodup h
  have h2 : l.toFinset ⊆ l'.toFinset := by
    intro a ha
    simp only [List.mem_toFinset] at ha ⊢
    exact hs ha
  have h3 := Finset.card_le_card h2
  have h4 : l'.toFinset.card ≤ l'.length := l'.toFinset_card_le
  omega

theorem getD_cons_eraseIdx_perm {α : Type} (d : α) :
    ∀ (l : List α) (i : Nat), i < l.length →
      (l.getD i d :: l.eraseIdx i).Perm l := by
  intro l
  induction l with
  | nil => intro i hi; simp at hi
  | cons x xs ih =>
    intro i hi
    cases i with
    | zero => simp [List.getD]
    | succ j =>
      have hj : j < xs.length := by simpa using hi
      have hperm := ih j hj
      have hgd : (x :: xs).getD (j + 1) d = xs.getD j d := by simp [List.getD]
      rw [hgd, List.eraseIdx_cons_succ]
      have hswap : (xs.getD j d :: x :: xs.eraseIdx j).Perm
          (x :: xs.getD j d :: xs.eraseIdx j) := List.Perm.swap x (xs.getD j d) _
      exact hswap.trans (List.Perm.cons x hperm)

theorem shuffleGo_perm {α : Type} :
    ∀ (fuel : Nat) (l : List α) (r : Rng), l.length ≤ fuel →
      (shuffleGo fuel l r).1.Perm l := by
  intro fuel
  induction fuel with
  | zero =>
    intro l r hl
    have : l = [] := List.eq_nil_of_length_eq_zero (by omega)
    rcases this with rfl
    simp [shuffleGo]
  | succ n ih =>
    intro l r hl
    match l with
    | [] => simp [shuffleGo]
    | x :: xs =>
      simp only [shuffleGo]
      have hi : ((Rng.next r).1 % (x :: xs).length) < (x :: xs).length :=
        Nat.mod_lt _ (by simp)
      have hrest :
          ((x :: xs).eraseIdx ((Rng.next r).1 % (x :: xs).length)).length ≤ n := by
        rw [List.length_eraseIdx, if_pos hi]
        simp only [List.length_cons] at hl ⊢
        omega
      have htail := ih ((x :: xs).eraseIdx ((Rng.next r).1 % (x :: xs).length))
        (Rng.next r).2 hrest
      exact (List.Perm.cons _ htail).trans (getD_cons_eraseIdx_perm x _ _ hi)

theorem shuffle_perm {α : Type} (l : List α) (r : Rng) :
    (shuffle l r).1.Perm l :=
  shuffleGo_perm l.length l r (le_refl _)

theorem chooseList_mem {α : Type} {l : List α} {r : Rng} {a : α} {r' : Rng}
    (h : chooseList l r = (some a, r')) : a ∈ l := by
  unfold chooseList at h
  split at h
  · simp at h
  · simp only [Prod.mk.injEq] at h
    rcases h with ⟨h1, _⟩
    rcases List.getElem?_eq_some_iff.1 h1 with ⟨hlt, hget⟩
    rw [← hget]
    exact List.getElem_mem hlt

theorem chooseList_some {α : Type} {l : List α} (hne : l ≠ []) (r : Rng) :
    ∃ a r', chooseList l r = (some a, r') := by
  unfold chooseList
  rw [if_neg (by simpa [List.isEmpty_iff] using hne)]
  have hlt : (Rng.next r).1 % l.length < l.length :=
    Nat.mod_lt _ (by
      cases l with
      | nil => exact absurd rfl hne
      | cons x xs => simp)
  exact ⟨l.get ⟨(Rng.next r).1 % l.length, hlt⟩, (Rng.next r).2,
    by rw [List.getElem?_eq_getElem hlt, List.get_eq_getElem]⟩

theorem addLoop_nodup (all_images : List Nat) (min_images : Nat) :
    ∀ (ids : List Nat) (r : Rng), ids.Nodup →
      (addLoop all_images min_images ids r).1.Nodup := by
  intro ids r
  induction ids, r using addLoop.induct all_images min_images with
  | case1 ids r hlt hav =>
    intro hnd
    unfold addLoop
    rw [dif_pos hlt, if_pos hav]
    exact hnd
  | case2 ids r hlt hav new_id r' hch ih =>
    intro hnd
    unfold addLoop
    rw [dif_pos hlt, if_neg hav, hch]
    refine ih ?_
    have hfresh : new_id ∉ ids := by
      have := List.of_mem_filter (chooseList_mem hch)
      simpa using this
    refine List.nodup_append.2 ⟨hnd, List.nodup_singleton _, ?_⟩
    intro a ha hb
    simp only [List.mem_singleton] at hb
    rcases hb with rfl
    exact hfresh ha
  | case3 ids r hlt hav r' hch =>
    intro hnd
    unfold addLoop
    rw [dif_pos hlt, if_neg hav, hch]
    exact hnd
  | case4 ids r hlt =>
    intro hnd
    unfold addLoop
    rw [dif_neg hlt]
    exact hnd

theorem addLoop_subset (all_images : List Nat) (min_images : Nat) :
    ∀ (ids : List Nat) (r : Rng),
      ∀ x ∈ (addLoop all_images min_images ids r).1,
        x ∈ ids ∨ x ∈ all_images := by
  intro ids r
  induction ids, r using addLoop.induct all_images min_images with
  | case1 ids r hlt hav =>
    unfold addLoop
    rw [dif_pos hlt, if_pos hav]
    intro x hx
    exact Or.inl hx
  | case2 ids r hlt hav new_id r' hch ih =>
    unfold addLoop
    rw [dif_pos hlt, if_neg hav, hch]
    intro x hx
    rcases ih x hx with hx' | hx'
    · rcases List.mem_append.1 hx' with h | h
      · exact Or.inl h
      · simp only [List.mem_singleton] at h
        rcases h with rfl
        exact Or.inr (List.mem_of_mem_filter (chooseList_mem hch))
    · exact Or.inr hx'
  | case3 ids r hlt hav r' hch =>
    unfold addLoop
    rw [dif_pos hlt, if_neg hav, hch]
    intro x hx
    exact Or.inl hx
  | case4 ids r hlt =>
    unfold addLoop
    rw [dif_neg hlt]
    intro x hx
    exact Or.inl hx

/-- The add loop exits either at `min_images` or because every corpus id is
already included (the "corpus exhausted" break).  The `none` arm of `choose`
is unreachable on a non-empty list. -/
theorem addLoop_exit (all_images : List Nat) (min_images : Nat) :
    ∀ (ids : List Nat) (r : Rng),
      min_images ≤ (addLoop all_images min_images ids r).1.length ∨
      ∀ x ∈ all_images, x ∈ (addLoop all_images min_images ids r).1 := by
  intro ids r
  induction ids, r using addLoop.induct all_images min_images with
  | case1 ids r hlt hav =>
    unfold addLoop
    rw [dif_pos hlt, if_pos hav]
    refine Or.inr ?_
    intro x hx
    have hnil : all_images.filter (fun y => !(ids.contains y)) = [] :=
      List.isEmpty_iff.1 hav
    by_contra hmem
    have : x ∈ all_images.filter (fun y => !(ids.contains y)) := by
      refine List.mem_filter.2 ⟨hx, ?_⟩
      simpa using hmem
    rw [hnil] at this
    exact absurd this (by simp)
  | case2 ids r hlt hav new_id r' hch ih =>
    unfold addLoop
    rw [dif_pos hlt, if_neg hav, hch]
    exact ih
  | case3 ids r hlt hav r' hch =>
    have hne : all_images.filter (fun y => !(ids.contains y)) ≠ [] := by
      intro hq
      rw [← List.isEmpty_iff] at hq
      exact hav hq
    rcases chooseList_some hne r with ⟨a, r2, hsome⟩
    exact absurd (hsome.symm.trans hch) (by simp)
  | case4 ids r hlt =>
    unfold addLoop
    rw [dif_neg hlt]
    refine Or.inl ?_
    dsimp only
    omega

theorem removeLoop_length (max_images : Nat) :
    ∀ (ids : List Nat) (r : Rng),
      (removeLoop max_images ids r).1.length = min ids.length max_images := by
  intro ids r
  induction ids, r using removeLoop.induct max_images with
  | case1 ids r hlt ih =>
    unfold removeLoop
    rw [dif_pos hlt]
    have hmod : (Rng.next r).1 % ids.length < ids.length :=
      Nat.mod_lt _ (by omega)
    rw [ih]
    rw [List.length_eraseIdx, if_pos hmod]
    omega
  | case2 ids r hlt =>
    unfold removeLoop
    rw [dif_neg hlt]
    dsimp only
    omega

theorem removeLoop_nodup (max_images : Nat) :
    ∀ (ids : List Nat) (r : Rng), ids.Nodup →
      (removeLoop max_images ids r).1.Nodup := by
  intro ids r
  induction ids, r using removeLoop.induct max_images with
  | case1 ids r hlt ih =>
    intro hnd
    unfold removeLoop
    rw [dif_pos hlt]
    exact ih ((List.eraseIdx_sublist ids _).nodup hnd)
  | case2 ids r hlt =>
    intro hnd
    unfold removeLoop
    rw [dif_neg hlt]
    exact hnd

theorem removeLoop_subset (max_images : Nat) :
    ∀ (ids : List Nat) (r : Rng),
      ∀ x ∈ (removeLoop max_images ids r).1, x ∈ ids := by
  intro ids r
  induction ids, r using removeLoop.induct max_images with
  | case1 ids r hlt ih =>
    unfold removeLoop
    rw [dif_pos hlt]
    intro x hx
    exact (List.eraseIdx_sublist ids _).subset (ih x hx)
  | case2 ids r hlt =>
    unfold removeLoop
    rw [dif_neg hlt]
    intro x hx
    exact hx

/-! ### Constraint enforcement: nodup and size bounds -/

theorem enforce_image_limits_nodup (ids all_images : List Nat)
    (min_images max_images : Nat) (r : Rng) (h : ids.Nodup) :
    (enforce_image_limits ids all_images min_images max_images r).1.Nodup := by
  unfold enforce_image_limits
  exact removeLoop_nodup _ _ _ (addLoop_nodup all_images min_images ids r h)

theorem enforce_image_limits_le (ids all_images : List Nat)
    (min_images max_images : Nat) (r : Rng) :
    (enforce_image_limits ids all_images min_images max_images r).1.length ≤
      max_images := by
  unfold enforce_image_limits
  rw [removeLoop_length]
  omega

theorem enforce_image_limits_ge (ids all_images : List Nat)
    (min_images max_images : Nat) (r : Rng) (hall : all_images.Nodup)
    (hmm : min_images ≤ max_images) :
    min min_images all_images.length ≤
      (enforce_image_limits ids all_images min_images max_images r).1.length := by
  unfold enforce_image_limits
  rw [removeLoop_length]
  rcases addLoop_exit all_images min_images ids r with h | h
  · omega
  · have hge : all_images.length ≤
        (addLoop all_images min_images ids r).1.length :=
      nodup_subset_length hall (fun x hx => h x hx)
    omega

theorem enforce_image_limits_subset (ids all_images : List Nat)
    (min_images max_images : Nat) (r : Rng) :
    ∀ x ∈ (enforce_image_limits ids all_images min_images max_images r).1,
      x ∈ ids ∨ x ∈ all_images := by
  unfold enforce_image_limits
  intro x hx
  exact addLoop_subset all_images min_images ids r x (removeLoop_subset _ _ _ x hx)

/-- Claim C6: when the corpus is smaller than `min_images`, the repair loop of
`enforce_image_limits` stops as soon as no unused ids remain, leaving the id
list at exactly the corpus size (the second loop never fires because
`corpus size < min_images ≤ max_images`).  Totality of the recursion is the
termination argument for every input. -/
theorem enforce_image_limits_exhausted (ids all_images : List Nat)
    (min_images max_images : Nat) (r : Rng)
    (hids : ids.Nodup) (hall : all_images.Nodup) (hsub : ids ⊆ all_images)
    (hsmall : all_images.length < min_images)
    (hmm : min_images ≤ max_images) :
    (enforce_image_limits ids all_images min_images max_images r).1.length =
      all_images.length := by
  have hnd := addLoop_nodup all_images min_images ids r hids
  have hsubs : (addLoop all_images min_images ids r).1 ⊆ all_images := by
    intro x hx
    rcases addLoop_subset all_images min_images ids r x hx with h | h
    · exact hsub h
    · exact h
  have hlenle : (addLoop all_images min_images ids r).1.length ≤
      all_images.length := nodup_subset_length hnd hsubs
  rcases addLoop_exit all_images min_images ids r with h | h
  · omega
  · have hge : all_images.length ≤
        (addLoop all_images min_images ids r).1.length :=
      nodup_subset_length hall (fun x hx => h x hx)
    unfold enforce_image_limits
    rw [removeLoop_length]
    omega

/-- The all-zero random stream, used for concrete witnesses. -/
def rngZero : Rng := ⟨fun _ => 0, fun _ => 0, 0⟩

/-- Witness for C6: a corpus of 3 ids with `min_images = 5, max_images = 10`
(the spec's own scenario) ends with exactly 3 ids. -/
theorem enforce_image_limits_exhausted_witness :
    ([] : List Nat).Nodup ∧ ([0, 1, 2] : List Nat).Nodup ∧
    ([] : List Nat) ⊆ [0, 1, 2] ∧ ([0, 1, 2] : List Nat).length < 5 ∧ 5 ≤ 10 ∧
    (enforce_image_limits [] [0, 1, 2] 5 10 rngZero).1.length =
      ([0, 1, 2] : List Nat).length :=
  ⟨by decide, by decide, by decide, by decide, by decide,
    enforce_image_limits_exhausted [] [0, 1, 2] 5 10 rngZero (by decide)
      (by decide) (by decide) (by decide) (by decide)⟩

/-! ### Id integrity of the three candidate producers -/

theorem dedupAdj_subset : ∀ (l : List Nat), ∀ x ∈ dedupAdj l, x ∈ l := by
  intro l
  induction l using dedupAdj.induct with
  | case1 => intro x hx; simp [dedupAdj] at hx
  | case2 y => intro x hx; simpa [dedupAdj] using hx
  | case3 y rest ih =>
    intro z hz
    rw [dedupAdj, if_pos rfl] at hz
    exact List.mem_cons_of_mem y (ih z hz)
  | case4 x y rest hne ih =>
    intro z hz
    rw [dedupAdj, if_neg hne] at hz
    rcases List.mem_cons.1 hz with h | h
    · exact h ▸ List.mem_cons_self x (y :: rest)
    · exact List.mem_cons_of_mem x (ih z h)

theorem dedupAdj_pairwise_lt : ∀ (l : List Nat),
    List.Pairwise (· ≤ ·) l → List.Pairwise (· < ·) (dedupAdj l) := by
  intro l
  induction l using dedupAdj.induct with
  | case1 => intro _; simp [dedupAdj]
  | case2 y => intro _; simp [dedupAdj]
  | case3 y rest ih =>
    intro hp
    rw [dedupAdj, if_pos rfl]
    exact ih (List.pairwise_cons.1 hp).2
  | case4 x y rest hne ih =>
    intro hp
    rw [dedupAdj, if_neg hne]
    have hx := (List.pairwise_cons.1 hp).1
    have htl := (List.pairwise_cons.1 hp).2
    have hy := (List.pairwise_cons.1 htl).1
    refine List.pairwise_cons.2 ⟨?_, ih htl⟩
    intro z hz
    have hzmem := dedupAdj_subset (y :: rest) z hz
    have hxy : x < y := lt_of_le_of_ne (hx y (List.mem_cons_self y rest)) hne
    rcases List.mem_cons.1 hzmem with h | h
    · omega
    · have := hy z h
      omega

theorem sorted_dedup_nodup (l : List Nat) :
    (dedupAdj (l.mergeSort (fun a b => decide (a ≤ b)))).Nodup := by
  have hsorted := @List.sorted_mergeSort Nat (fun a b : Nat => decide (a ≤ b))
    (fun a b c hab hbc => by
      simp only [decide_eq_true_eq] at hab hbc ⊢
      omega)
    (fun a b => by
      simp only [Bool.or_eq_true, decide_eq_true_eq]
      omega)
    l
  have hle : List.Pairwise (· ≤ ·)
      (l.mergeSort (fun a b => decide (a ≤ b))) :=
    hsorted.imp (fun h => by simpa using h)
  exact (dedupAdj_pairwise_lt _ hle).imp (fun h => Nat.ne_of_lt h)

theorem create_random_individual_spec (all_images : List Nat)
    (min_images max_images : Nat) (r : Rng) (hall : all_images.Nodup)
    (hmm : min_images ≤ max_images) :
    (create_random_individual all_images min_images max_images r).1.image_ids.Nodup ∧
    (create_random_individual all_images min_images max_images r).1.image_ids.length ≤
      max_images ∧
    min min_images all_images.length ≤
      (create_random_individual all_images min_images max_images r).1.image_ids.length := by
  simp only [create_random_individual]
  have hperm := shuffle_perm all_images (genRangeIncl min_images max_images r).2
  refine ⟨?_, ?_, ?_⟩
  · exact (List.take_sublist _ _).nodup (hall.perm hperm.symm)
  · rw [List.length_take, hperm.length_eq]
    have hd2 : (genRangeIncl min_images max_images r).1 ≤ max_images := by
      simp only [genRangeIncl]
      have : (Rng.next r).1 % (max_images + 1 - min_images) <
          max_images + 1 - min_images := Nat.mod_lt _ (by omega)
      omega
    omega
  · rw [List.length_take, hperm.length_eq]
    have hd1 : min_images ≤ (genRangeIncl min_images max_images r).1 := by
      simp only [genRangeIncl]
      omega
    omega

theorem crossover_nodup (parent1 parent2 : Individual) (all_images : List Nat)
    (min_images max_images : Nat) (r : Rng) :
    (crossover parent1 parent2 all_images min_images max_images r).1.image_ids.Nodup := by
  unfold crossover
  split
  · exact List.nodup_nil
  · exact enforce_image_limits_nodup _ _ _ _ _ (sorted_dedup_nodup _)

theorem crossover_le (parent1 parent2 : Individual) (all_images : List Nat)
    (min_images max_images : Nat) (r : Rng) :
    (crossover parent1 parent2 all_images min_images max_images r).1.image_ids.length ≤
      max_images := by
  unfold crossover
  split
  · simp
  · exact enforce_image_limits_le _ _ _ _ _

theorem crossover_ge (parent1 parent2 : Individual) (all_images : List Nat)
    (min_images max_images : Nat) (r : Rng) (hall : all_images.Nodup)
    (hmm : min_images ≤ max_images)
    (hne : ¬(parent1.image_ids.length = 0 ∧ parent2.image_ids.length = 0)) :
    min min_images all_images.length ≤
      (crossover parent1 parent2 all_images min_images max_images r).1.image_ids.length := by
  unfold crossover
  rw [if_neg hne]
  exact enforce_image_limits_ge _ _ _ _ _ hall hmm

theorem mutate_step_nodup (indiv : Individual) (all_images : List Nat)
    (min_images max_images : Nat) (r : Rng) (hnd : indiv.image_ids.Nodup) :
    (mutate indiv all_images min_images max_images r).1.image_ids.Nodup := by
  unfold mutate
  split
  · exact hnd
  · refine enforce_image_limits_nodup _ _ _ _ _ ?_
    split
    · rcases hc : chooseList
        (all_images.filter (fun x => !(indiv.image_ids.contains x)))
        (Rng.nextFloat r).2 with ⟨o, rr⟩
      cases o with
      | some a =>
        have hfresh : a ∉ indiv.image_ids := by
          have := List.of_mem_filter (chooseList_mem hc)
          simpa using this
        show (indiv.image_ids ++ [a]).Nodup
        refine List.nodup_append.2 ⟨hnd, List.nodup_singleton _, ?_⟩
        intro z hz hz'
        simp only [List.mem_singleton] at hz'
        rcases hz' with rfl
        exact hfresh hz
      | none => exact hnd
    · split
      · exact (List.eraseIdx_sublist _ _).nodup hnd
      · split
        · exact hnd
        · rcases hc : chooseList
            (all_images.filter (fun x => !(indiv.image_ids.contains x)))
            (Rng.next (Rng.nextFloat r).2).2 with ⟨o, rr⟩
          cases o with
          | some a =>
            have hfresh : a ∉ indiv.image_ids := by
              have := List.of_mem_filter (chooseList_mem hc)
              simpa using this
            exact hnd.set hfresh
          | none => exact hnd

theorem mutate_le (indiv : Individual) (all_images : List Nat)
    (min_images max_images : Nat) (r : Rng)
    (hle : indiv.image_ids.length ≤ max_images) :
    (mutate indiv all_images min_images max_images r).1.image_ids.length ≤
      max_images := by
  unfold mutate
  split
  · exact hle
  · exact enforce_image_limits_le _ _ _ _ _

theorem mutate_ge (indiv : Individual) (all_images : List Nat)
    (min_images max_images : Nat) (r : Rng) (hall : all_images.Nodup)
    (hmm : min_images ≤ max_images) (hne : indiv.image_ids ≠ []) :
    min min_images all_images.length ≤
      (mutate indiv all_images min_images max_images r).1.image_ids.length := by
  unfold mutate
  rw [if_neg (by simpa [List.isEmpty_iff] using hne)]
  exact enforce_image_limits_ge _ _ _ _ _ hall hmm

/-- Claim C5 (amended): over a duplicate-free corpus with
`min_images ≤ max_images`, every candidate produced by
`create_random_individual`, `crossover`, or `mutate` has duplicate-free ids
and at most `max_images` of them; the lower bound holds in the weakened form
`min(min_images, corpus size) ≤ |ids|` — and for `crossover` only when the
parents are not both empty, and for `mutate` only when the input candidate is
non-empty, since those two degenerate cases return the unchanged empty list
without running the repair step. -/
theorem id_integrity (all_images : List Nat) (min_images max_images : Nat)
    (hall : all_images.Nodup) (hmm : min_images ≤ max_images) :
    (∀ r : Rng,
      (create_random_individual all_images min_images max_images r).1.image_ids.Nodup ∧
      (create_random_individual all_images min_images max_images r).1.image_ids.length ≤
        max_images ∧
      min min_images all_images.length ≤
        (create_random_individual all_images min_images max_images r).1.image_ids.length) ∧
    (∀ (parent1 parent2 : Individual) (r : Rng),
      (crossover parent1 parent2 all_images min_images max_images r).1.image_ids.Nodup ∧
      (crossover parent1 parent2 all_images min_images max_images r).1.image_ids.length ≤
        max_images ∧
      (¬(parent1.image_ids.length = 0 ∧ parent2.image_ids.length = 0) →
        min min_images all_images.length ≤
          (crossover parent1 parent2 all_images min_images max_images r).1.image_ids.length)) ∧
    (∀ (indiv : Individual) (r : Rng),
      indiv.image_ids.Nodup → indiv.image_ids.length ≤ max_images →
      (mutate indiv all_images min_images max_images r).1.image_ids.Nodup ∧
      (mutate indiv all_images min_images max_images r).1.image_ids.length ≤
        max_images ∧
      (indiv.image_ids ≠ [] →
        min min_images all_images.length ≤
          (mutate indiv all_images min_images max_images r).1.image_ids.length)) := by
  refine ⟨?_, ?_, ?_⟩
  · intro r
    exact create_random_individual_spec all_images min_images max_images r hall hmm
  · intro parent1 parent2 r
    exact ⟨crossover_nodup parent1 parent2 all_images min_images max_images r,
      crossover_le parent1 parent2 all_images min_images max_images r,
      crossover_ge parent1 parent2 all_images min_images max_images r hall hmm⟩
  · intro indiv r hnd hle
    exact ⟨mutate_step_nodup indiv all_images min_images max_images r hnd,
      mutate_le indiv all_images min_images max_images r hle,
      mutate_ge indiv all_images min_images max_images r hall hmm⟩

/-- Counterexample for C5 as stated: with a 1-image corpus and
`min_images = max_images = 2`, `create_random_individual` clamps the drawn
count to the corpus size and returns a single id, violating
`min_images ≤ |ids|`. -/
theorem id_integrity_counterexample :
    (create_random_individual [0] 2 2 rngZero).1.image_ids.length = 1 ∧
    ¬(2 ≤ (create_random_individual [0] 2 2 rngZero).1.image_ids.length) := by
  constructor
  · decide
  · decide

/-- Witness for the amended C5 at a concrete corpus, candidate, and stream. -/
theorem id_integrity_witness :
    ([0, 1, 2] : List Nat).Nodup ∧ 1 ≤ 2 ∧
    (∀ r : Rng,
      (create_random_individual [0, 1, 2] 1 2 r).1.image_ids.Nodup ∧
      (create_random_individual [0, 1, 2] 1 2 r).1.image_ids.length ≤ 2 ∧
      min 1 ([0, 1, 2] : List Nat).length ≤
        (create_random_individual [0, 1, 2] 1 2 r).1.image_ids.length) ∧
    (∀ (parent1 parent2 : Individual) (r : Rng),
      (crossover parent1 parent2 [0, 1, 2] 1 2 r).1.image_ids.Nodup ∧
      (crossover parent1 parent2 [0, 1, 2] 1 2 r).1.image_ids.length ≤ 2 ∧
      (¬(parent1.image_ids.length = 0 ∧ parent2.image_ids.length = 0) →
        min 1 ([0, 1, 2] : List Nat).length ≤
          (crossover parent1 parent2 [0, 1, 2] 1 2 r).1.image_ids.length)) ∧
    (∀ (indiv : Individual) (r : Rng),
      indiv.image_ids.Nodup → indiv.image_ids.length ≤ 2 →
      (mutate indiv [0, 1, 2] 1 2 r).1.image_ids.Nodup ∧
      (mutate indiv [0, 1, 2] 1 2 r).1.image_ids.length ≤ 2 ∧
      (indiv.image_ids ≠ [] →
        min 1 ([0, 1, 2] : List Nat).length ≤
          (mutate indiv [0, 1, 2] 1 2 r).1.image_ids.length)) :=
  ⟨by decide, by decide, id_integrity [0, 1, 2] 1 2 (by decide) (by decide)⟩

/-! ### Crossover and mutation follow their spec description -/

theorem chooseList_none {α : Type} {l : List α} {r r' : Rng}
    (h : chooseList l r = (none, r')) : l = [] := by
  by_contra hne
  rcases chooseList_some hne r with ⟨a, r2, hsome⟩
  rw [hsome] at h
  simp at h

/-- Claim C7: `crossover` picks cut points `c1 ≤ |parent1|`, `c2 ≤ |parent2|`
(each `gen_range(0..=len)`), builds the child from parent1's prefix and
parent2's suffix, sorts, removes duplicates, and applies
`enforce_image_limits`; two empty parents yield the empty candidate with
fitness 0 and no layout, consuming no draws. -/
theorem crossover_spec (parent1 parent2 : Individual) (all_images : List Nat)
    (min_images max_images : Nat) (r : Rng) :
    (parent1.image_ids = [] ∧ parent2.image_ids = [] →
      crossover parent1 parent2 all_images min_images max_images r =
        (⟨[], 0, none⟩, r)) ∧
    (¬(parent1.image_ids = [] ∧ parent2.image_ids = []) →
      ∃ (c1 c2 : Nat) (r' : Rng), c1 ≤ parent1.image_ids.length ∧
        c2 ≤ parent2.image_ids.length ∧
        crossover parent1 parent2 all_images min_images max_images r =
          (⟨(enforce_image_limits
              (dedupAdj ((parent1.image_ids.take c1 ++
                  parent2.image_ids.drop c2).mergeSort
                (fun a b => decide (a ≤ b))))
              all_images min_images max_images r').1, 0, none⟩,
           (enforce_image_limits
              (dedupAdj ((parent1.image_ids.take c1 ++
                  parent2.image_ids.drop c2).mergeSort
                (fun a b => decide (a ≤ b))))
              all_images min_images max_images r').2)) := by
  constructor
  · intro h
    unfold crossover
    rw [if_pos ⟨by simp [h.1], by simp [h.2]⟩]
  · intro hne
    unfold crossover
    rw [if_neg (by simpa [List.length_eq_zero] using hne)]
    refine ⟨(genRangeIncl 0 parent1.image_ids.length r).1,
      (genRangeIncl 0 parent2.image_ids.length
        (genRangeIncl 0 parent1.image_ids.length r).2).1,
      (genRangeIncl 0 parent2.image_ids.length
        (genRangeIncl 0 parent1.image_ids.length r).2).2, ?_, ?_, rfl⟩
    · simp only [genRangeIncl]
      have : (Rng.next r).1 % (parent1.image_ids.length + 1 - 0) <
          parent1.image_ids.length + 1 - 0 := Nat.mod_lt _ (by omega)
      omega
    · simp only [genRangeIncl]
      have : (Rng.next (Rng.next r).2).1 %
          (parent2.image_ids.length + 1 - 0) <
          parent2.image_ids.length + 1 - 0 := Nat.mod_lt _ (by omega)
      omega

/-- Witness candidates for the crossover and mutation spec theorems. -/
def indivA : Individual := ⟨[0], 0, none⟩

/-- Second witness parent. -/
def indivB : Individual := ⟨[1], 0, none⟩

/-- Witness for C7: discharges both internal hypotheses — the empty case at
two empty parents and the general case at `indivA`, `indivB`. -/
theorem crossover_spec_witness :
    (indivEmpty.image_ids = [] ∧ indivEmpty.image_ids = [] →
      crossover indivEmpty indivEmpty [0, 1] 1 2 rngZero =
        (⟨[], 0, none⟩, rngZero)) ∧
    (¬(indivA.image_ids = [] ∧ indivB.image_ids = []) →
      ∃ (c1 c2 : Nat) (r' : Rng), c1 ≤ indivA.image_ids.length ∧
        c2 ≤ indivB.image_ids.length ∧
        crossover indivA indivB [0, 1] 1 2 rngZero =
          (⟨(enforce_image_limits
              (dedupAdj ((indivA.image_ids.take c1 ++
                  indivB.image_ids.drop c2).mergeSort
                (fun a b => decide (a ≤ b))))
              [0, 1] 1 2 r').1, 0, none⟩,
           (enforce_image_limits
              (dedupAdj ((indivA.image_ids.take c1 ++
                  indivB.image_ids.drop c2).mergeSort
                (fun a b => decide (a ≤ b))))
              [0, 1] 1 2 r').2)) :=
  ⟨(crossover_spec indivEmpty indivEmpty [0, 1] 1 2 rngZero).1,
   (crossover_spec indivA indivB [0, 1] 1 2 rngZero).2⟩

/-- Claim C8: for a non-empty candidate, `mutate` performs exactly one of
three moves selected by a single `gen::<f64>()` draw split at `0.33` and
`0.66` — add one random not-included id (only if `|ids| < max_images`),
remove one random included id (only if `|ids| > min_images`), or replace one
random included id with a random not-included one — and always ends with
`enforce_image_limits`.  The add and replace moves degrade to no-ops when no
unused id exists (and replace also when the corpus is empty). -/
theorem mutate_one_of_three (indiv : Individual) (all_images : List Nat)
    (min_images max_images : Nat) (r : Rng) (hne : indiv.image_ids ≠ []) :
    ∃ (ids1 : List Nat) (r2 : Rng),
      mutate indiv all_images min_images max_images r =
        ({ indiv with image_ids :=
            (enforce_image_limits ids1 all_images min_images max_images r2).1 },
         (enforce_image_limits ids1 all_images min_images max_images r2).2) ∧
      (((Rng.nextFloat r).1 < 33/100 ∧ indiv.image_ids.length < max_images) →
        (∃ a, a ∈ all_images ∧ a ∉ indiv.image_ids ∧
          ids1 = indiv.image_ids ++ [a]) ∨
        (all_images.filter (fun x => !(indiv.image_ids.contains x)) = [] ∧
          ids1 = indiv.image_ids)) ∧
      (¬((Rng.nextFloat r).1 < 33/100 ∧ indiv.image_ids.length < max_images) →
        ((Rng.nextFloat r).1 < 66/100 ∧ min_images < indiv.image_ids.length) →
        ∃ i, i < indiv.image_ids.length ∧
          ids1 = indiv.image_ids.eraseIdx i) ∧
      (¬((Rng.nextFloat r).1 < 33/100 ∧ indiv.image_ids.length < max_images) →
        ¬((Rng.nextFloat r).1 < 66/100 ∧ min_images < indiv.image_ids.length) →
        (∃ i, i < indiv.image_ids.length ∧ ∃ a, a ∈ all_images ∧
          a ∉ indiv.image_ids ∧ ids1 = indiv.image_ids.set i a) ∨
        ids1 = indiv.image_ids) := by
  have hlen : 0 < indiv.image_ids.length := by
    cases himp : indiv.image_ids with
    | nil => exact absurd himp hne
    | cons x xs => simp [himp]
  unfold mutate
  rw [if_neg (by simpa [List.isEmpty_iff] using hne)]
  refine ⟨_, _, rfl, ?_, ?_, ?_⟩
  · intro hc
    rw [if_pos hc]
    rcases hch : chooseList
      (all_images.filter (fun x => !(indiv.image_ids.contains x)))
      (Rng.nextFloat r).2 with ⟨o, rr⟩
    cases o with
    | some a =>
      refine Or.inl ⟨a, List.mem_of_mem_filter (chooseList_mem hch), ?_, rfl⟩
      have := List.of_mem_filter (chooseList_mem hch)
      simpa using this
    | none =>
      exact Or.inr ⟨chooseList_none hch, rfl⟩
  · intro hc1 hc2
    rw [if_neg hc1, if_pos hc2]
    exact ⟨(Rng.next (Rng.nextFloat r).2).1 % indiv.image_ids.length,
      Nat.mod_lt _ hlen, rfl⟩
  · intro hc1 hc2
    rw [if_neg hc1, if_neg hc2]
    split
    · exact Or.inr rfl
    · rcases hch : chooseList
        (all_images.filter (fun x => !(indiv.image_ids.contains x)))
        (Rng.next (Rng.nextFloat r).2).2 with ⟨o, rr⟩
      cases o with
      | some a =>
        refine Or.inl ⟨(Rng.next (Rng.nextFloat r).2).1 % indiv.image_ids.length,
          Nat.mod_lt _ hlen, a,
          List.mem_of_mem_filter (chooseList_mem hch), ?_, rfl⟩
        have := List.of_mem_filter (chooseList_mem hch)
        simpa using this
      | none => exact Or.inr rfl

/-- Witness for C8 at a concrete non-empty candidate: the `0` draw lands in
the add band and a fresh id exists. -/
theorem mutate_one_of_three_witness :
    indivA.image_ids ≠ [] ∧
    ∃ (ids1 : List Nat) (r2 : Rng),
      mutate indivA [0, 1] 1 2 rngZero =
        ({ indivA with image_ids :=
            (enforce_image_limits ids1 [0, 1] 1 2 r2).1 },
         (enforce_image_limits ids1 [0, 1] 1 2 r2).2) ∧
      (((Rng.nextFloat rngZero).1 < 33/100 ∧ indivA.image_ids.length < 2) →
        (∃ a, a ∈ [0, 1] ∧ a ∉ indivA.image_ids ∧
          ids1 = indivA.image_ids ++ [a]) ∨
        (([0, 1] : List Nat).filter (fun x => !(indivA.image_ids.contains x)) = [] ∧
          ids1 = indivA.image_ids)) ∧
      (¬((Rng.nextFloat rngZero).1 < 33/100 ∧ indivA.image_ids.length < 2) →
        ((Rng.nextFloat rngZero).1 < 66/100 ∧ 1 < indivA.image_ids.length) →
        ∃ i, i < indivA.image_ids.length ∧
          ids1 = indivA.image_ids.eraseIdx i) ∧
      (¬((Rng.nextFloat rngZero).1 < 33/100 ∧ indivA.image_ids.length < 2) →
        ¬((Rng.nextFloat rngZero).1 < 66/100 ∧ 1 < indivA.image_ids.length) →
        (∃ i, i < indivA.image_ids.length ∧ ∃ a, a ∈ [0, 1] ∧
          a ∉ indivA.image_ids ∧ ids1 = indivA.image_ids.set i a) ∨
        ids1 = indivA.image_ids) :=
  ⟨by decide, mutate_one_of_three indivA [0, 1] 1 2 rngZero (by decide)⟩

/-! ### The GA main loop (`src/main.rs`)

Rust panics (`unwrap` on `elites.choose`, indexing `population[0]` on an empty
vector) are embedded as `Except.error`.  The `rayon` parallel evaluation is a
per-candidate pure map, embedded as `List.map`. -/

/-- The two panic sites of the GA loop in `main`. -/
inductive GaPanic where
  | indexOutOfBounds
  | unwrapFailed
deriving DecidableEq, Repr

/-- `population.sort_by(|a, b| b.fitness.partial_cmp(&a.fitness).unwrap())`:
stable sort by descending fitness (total on `ℚ`, so the comparator never
panics). -/
def sortByFitnessDesc (pop : List Individual) : List Individual :=
  pop.mergeSort (fun a b => decide (b.fitness ≤ a.fitness))

/-- One offspring of the reproduction loop in `main`: with probability
`crossover_rate` cross the two parents over, otherwise clone parent 1 and
re-enforce its limits; then with probability `mutation_rate` mutate the
child. -/
def reproduceChild (parent1 parent2 : Individual) (all_images : List Nat)
    (min_images max_images : Nat) (mutation_rate crossover_rate : ℚ)
    (r2 : Rng) : Individual × Rng :=
  let cr := Rng.nextFloat r2
  let child :=
    if cr.1 < crossover_rate then
      crossover parent1 parent2 all_images min_images max_images cr.2
    else
      ({ parent1 with image_ids :=
          (enforce_image_limits parent1.image_ids all_images min_images
            max_images cr.2).1 },
       (enforce_image_limits parent1.image_ids all_images min_images
          max_images cr.2).2)
  let mr := Rng.nextFloat child.2
  if mr.1 < mutation_rate then
    mutate child.1 all_images min_images max_images mr.2
  else (child.1, mr.2)

/-- The reproduction loop of `main`: while the new population is short of
`population_size`, draw two elites (`unwrap` panics when the elite slice is
empty) and push one offspring. -/
def reproduceAux (elites : List Individual) (all_images : List Nat)
    (min_images max_images : Nat) (mutation_rate crossover_rate : ℚ)
    (population_size : Nat) (acc : List Individual) (r : Rng) :
    Except GaPanic (List Individual × Rng) :=
  if _h : acc.length < population_size then
    match chooseList elites r with
    | (none, _) => .error .unwrapFailed
    | (some parent1, r1) =>
      match chooseList elites r1 with
      | (none, _) => .error .unwrapFailed
      | (some parent2, r2) =>
        reproduceAux elites all_images min_images max_images mutation_rate
          crossover_rate population_size
          (acc ++ [(reproduceChild parent1 parent2 all_images min_images
            max_images mutation_rate crossover_rate r2).1])
          (reproduceChild parent1 parent2 all_images min_images max_images
            mutation_rate crossover_rate r2).2
  else .ok (acc, r)
termination_by population_size - acc.length
decreasing_by simp only [List.length_append, List.length_cons, List.length_nil]; omega

/-- One generation of the GA loop: sort by descending fitness, read
`population[0]` (panics on an empty population), keep the top half as elites,
refill by reproduction, and re-evaluate everyone in parallel. -/
def gaStep (pop : List Individual) (population_size : Nat)
    (all_images : List Nat) (dims : Nat → Nat × Nat)
    (min_images max_images : Nat) (mutation_rate crossover_rate : ℚ)
    (r : Rng) : Except GaPanic (List Individual × Rng) :=
  match sortByFitnessDesc pop with
  | [] => .error .indexOutOfBounds
  | best :: rest =>
    match reproduceAux ((best :: rest).take (population_size / 2)) all_images
        min_images max_images mutation_rate crossover_rate population_size
        ((best :: rest).take (population_size / 2)) r with
    | .error e => .error e
    | .ok (newPop, r') =>
      .ok (newPop.map (fun i => evaluate_individual i dims), r')

/-- Population initialisation: `population_size` independent random
candidates. -/
def initPop (all_images : List Nat) (min_images max_images : Nat) :
    Nat → Rng → List Individual × Rng
  | 0, r => ([], r)
  | n + 1, r =>
    let ir := create_random_individual all_images min_images max_images r
    let rest := initPop all_images min_images max_images n ir.2
    (ir.1 :: rest.1, rest.2)

/-- Iterated generations (`for gen in 1..=generations`). -/
def runGens (population_size : Nat) (all_images : List Nat)
    (dims : Nat → Nat × Nat) (min_images max_images : Nat)
    (mutation_rate crossover_rate : ℚ) :
    Nat → List Individual → Rng → Except GaPanic (List Individual × Rng)
  | 0, pop, r => .ok (pop, r)
  | g + 1, pop, r =>
    match gaStep pop population_size all_images dims min_images max_images
        mutation_rate crossover_rate r with
    | .error e => .error e
    | .ok (pop', r') =>
      runGens population_size all_images dims min_images max_images
        mutation_rate crossover_rate g pop' r'

/-- `main` from `src/main.rs`, from the post-load state to the best layout:
empty corpus returns early with no layout; otherwise build and evaluate the
initial population, run the generations, and read the best individual's
layout (`&population[0]`, a panic on an empty population). -/
def gaRun (all_images : List Nat) (dims : Nat → Nat × Nat)
    (population_size generations min_images max_images : Nat)
    (mutation_rate crossover_rate : ℚ) (r : Rng) :
    Except GaPanic (Option (List (Nat × Rect) × Nat × Nat)) :=
  if all_images.isEmpty then .ok none
  else
    let p0 := initPop all_images min_images max_images population_size r
    let pop1 := p0.1.map (fun i => evaluate_individual i dims)
    match runGens population_size all_images dims min_images max_images
        mutation_rate crossover_rate generations pop1 p0.2 with
    | .error e => .error e
    | .ok (popF, _) =>
      match sortByFitnessDesc popF with
      | [] => .error .indexOutOfBounds
      | best :: _ => .ok best.packed_layout

/-! ### Elitism: the best fitness never decreases across a generation -/

/-- The best (maximal) fitness value in a population; `0` for an empty one
(fitness values are never negative). -/
def bestFitness (pop : List Individual) : ℚ :=
  (pop.map (fun i => i.fitness)).foldr max 0

theorem le_bestFitness {pop : List Individual} {x : Individual}
    (hx : x ∈ pop) : x.fitness ≤ bestFitness pop := by
  induction pop with
  | nil => simp at hx
  | cons y t ih =>
    simp only [bestFitness, List.map_cons, List.foldr_cons]
    rcases List.mem_cons.1 hx with rfl | hx'
    · exact le_max_left _ _
    · exact le_trans (ih hx') (le_max_right _ _)

theorem bestFitness_le {pop : List Individual} {c : ℚ}
    (h : ∀ x ∈ pop, x.fitness ≤ c) (hc : 0 ≤ c) : bestFitness pop ≤ c := by
  induction pop with
  | nil => simpa [bestFitness] using hc
  | cons y t ih =>
    simp only [bestFitness, List.map_cons, List.foldr_cons]
    exact max_le (h y (List.mem_cons_self y t))
      (ih (fun x hx => h x (List.mem_cons_of_mem y hx)))

/-- The fitness that evaluation assigns to an id list (evaluation reads only
`image_ids`). -/
def evalFitness (ids : List Nat) (dims : Nat → Nat × Nat) : ℚ :=
  (evaluate_individual ⟨ids, 0, none⟩ dims).fitness

theorem evaluate_individual_image_ids (i : Individual)
    (dims : Nat → Nat × Nat) :
    (evaluate_individual i dims).image_ids = i.image_ids := by
  unfold evaluate_individual
  dsimp only
  split
  · rfl
  · rfl

theorem evaluate_individual_fitness_only_ids (i : Individual)
    (dims : Nat → Nat × Nat) :
    (evaluate_individual i dims).fitness = evalFitness i.image_ids dims := by
  unfold evalFitness evaluate_individual
  dsimp only

theorem evalFitness_nonneg (ids : List Nat) (dims : Nat → Nat × Nat) :
    0 ≤ evalFitness ids dims := by
  unfold evalFitness evaluate_individual
  dsimp only
  split
  · exact le_refl 0
  · refine div_nonneg (Nat.cast_nonneg _) ?_
    have h1 : (0:ℚ) ≤
        ((((pack_images ids dims).2.1 * (pack_images ids dims).2.2 -
            ((pack_images ids dims).1.map
              (fun pr => pr.2.width * pr.2.height)).sum : Nat) : ℚ) /
          (((pack_images ids dims).2.1 * (pack_images ids dims).2.2 : Nat) : ℚ)) :=
      div_nonneg (Nat.cast_nonneg _) (Nat.cast_nonneg _)
    have h2 := abs_nonneg
      ((if (pack_images ids dims).2.2 = 0 then (99999 : ℚ) / 10
        else ((pack_images ids dims).2.1 : ℚ) / ((pack_images ids dims).2.2 : ℚ)) -
        DESIRED_ASPECT_RATIO)
    linarith

theorem reproduceAux_ok (elites : List Individual) (all_images : List Nat)
    (min_images max_images : Nat) (mutation_rate crossover_rate : ℚ)
    (population_size : Nat) (hne : elites ≠ []) :
    ∀ (acc : List Individual) (r : Rng), ∃ s r',
      reproduceAux elites all_images min_images max_images mutation_rate
        crossover_rate population_size acc r = .ok (acc ++ s, r') := by
  intro acc r
  induction acc, r using reproduceAux.induct elites all_images min_images
    max_images mutation_rate crossover_rate population_size with
  | case1 acc r hlt snd hch =>
    rcases chooseList_some hne r with ⟨a, r', hsome⟩
    exact absurd (hsome.symm.trans hch) (by simp)
  | case2 acc r hlt p1 r1 hch1 snd hch2 =>
    rcases chooseList_some hne r1 with ⟨a, r', hsome⟩
    exact absurd (hsome.symm.trans hch2) (by simp)
  | case3 acc r hlt p1 r1 hch1 p2 r2 hch2 ih =>
    obtain ⟨s, r', hs⟩ := ih
    unfold reproduceAux
    rw [dif_pos hlt, hch1]
    dsimp only
    rw [hch2]
    dsimp only
    rw [List.append_assoc, List.singleton_append] at hs
    exact ⟨_, _, hs⟩
  | case4 acc r hlt =>
    unfold reproduceAux
    rw [dif_neg hlt]
    exact ⟨[], r, by simp⟩

/-- Claim C9: across one GA generation step — sort by descending fitness,
keep the top half as elites, refill with offspring, re-evaluate all — the
best fitness never decreases, provided the population matches the configured
size, `population_size ≥ 2` (so the elite slice is non-empty; size ≤ 1
panics, claim C10), and the stored fitness values are the evaluation values
(which holds after every evaluation round, since evaluation is deterministic
and reads only the id list). -/
theorem gaStep_elitism (pop : List Individual) (population_size : Nat)
    (all_images : List Nat) (dims : Nat → Nat × Nat)
    (min_images max_images : Nat) (mutation_rate crossover_rate : ℚ)
    (r : Rng) (hlen : pop.length = population_size) (h2 : 2 ≤ population_size)
    (heval : ∀ ind ∈ pop, ind.fitness = evalFitness ind.image_ids dims) :
    ∃ newPop r',
      gaStep pop population_size all_images dims min_images max_images
        mutation_rate crossover_rate r = .ok (newPop, r') ∧
      bestFitness pop ≤ bestFitness newPop := by
  have hperm : (sortByFitnessDesc pop).Perm pop := List.mergeSort_perm pop _
  have hlens : (sortByFitnessDesc pop).length = pop.length := hperm.length_eq
  have hsorted := @List.sorted_mergeSort Individual
    (fun a b : Individual => decide (b.fitness ≤ a.fitness))
    (fun a b c hab hbc => by
      simp only [decide_eq_true_eq] at hab hbc ⊢
      exact le_trans hbc hab)
    (fun a b => by
      simp only [Bool.or_eq_true, decide_eq_true_eq]
      exact le_total b.fitness a.fitness)
    pop
  cases hs : sortByFitnessDesc pop with
  | nil =>
    rw [hs] at hlens
    simp only [List.length_nil] at hlens
    omega
  | cons best rest =>
    have hsorted' : List.Pairwise
        (fun a b => decide (b.fitness ≤ a.fitness) = true) (best :: rest) := by
      rw [← hs]
      exact hsorted
    have hbestmem : best ∈ pop :=
      hperm.mem_iff.1 (hs ▸ List.mem_cons_self best rest)
    have hdom : ∀ x ∈ pop, x.fitness ≤ best.fitness := by
      intro x hx
      have hxs : x ∈ best :: rest := hs ▸ hperm.mem_iff.2 hx
      rcases List.mem_cons.1 hxs with rfl | hx'
      · exact le_refl _
      · have := (List.pairwise_cons.1 hsorted').1 x hx'
        simpa using this
    unfold gaStep
    rw [hs]
    dsimp only
    have helne : (best :: rest).take (population_size / 2) ≠ [] := by
      have hhalf : 1 ≤ population_size / 2 := by omega
      cases hh : population_size / 2 with
      | zero => omega
      | succ m => simp [List.take_succ_cons]
    obtain ⟨s, r', hrep⟩ := reproduceAux_ok _ all_images min_images max_images
      mutation_rate crossover_rate population_size helne
      ((best :: rest).take (population_size / 2)) r
    rw [hrep]
    refine ⟨_, r', rfl, ?_⟩
    have hbestelite : best ∈ (best :: rest).take (population_size / 2) := by
      have hhalf : 1 ≤ population_size / 2 := by omega
      cases hh : population_size / 2 with
      | zero => omega
      | succ m =>
        rw [List.take_succ_cons]
        exact List.mem_cons_self _ _
    have hmemnew : evaluate_individual best dims ∈
        (((best :: rest).take (population_size / 2) ++ s).map
          (fun i => evaluate_individual i dims)) :=
      List.mem_map_of_mem _ (List.mem_append_left _ hbestelite)
    have hup := le_bestFitness hmemnew
    rw [evaluate_individual_fitness_only_ids, ← heval best hbestmem] at hup
    have hnn : 0 ≤ best.fitness := by
      rw [heval best hbestmem]
      exact evalFitness_nonneg _ _
    exact le_trans (bestFitness_le hdom hnn) hup

/-- Witness population for C9: two evaluated individuals. -/
def popW : List Individual :=
  [evaluate_individual indivA dimsTen, evaluate_individual indivEmpty dimsTen]

/-- Witness for C9 at a concrete evaluated population of size 2. -/
theorem gaStep_elitism_witness :
    popW.length = 2 ∧ 2 ≤ 2 ∧
    (∀ ind ∈ popW, ind.fitness = evalFitness ind.image_ids dimsTen) ∧
    ∃ newPop r',
      gaStep popW 2 [0] dimsTen 1 1 0 0 rngZero = .ok (newPop, r') ∧
      bestFitness popW ≤ bestFitness newPop := by
  have heval : ∀ ind ∈ popW, ind.fitness = evalFitness ind.image_ids dimsTen := by
    intro ind hind
    rcases List.mem_cons.1 hind with rfl | hind'
    · rw [evaluate_individual_fitness_only_ids, evaluate_individual_image_ids]
    · rcases List.mem_cons.1 hind' with rfl | hind''
      · rw [evaluate_individual_fitness_only_ids, evaluate_individual_image_ids]
      · simp at hind''
  exact ⟨rfl, le_refl 2, heval,
    gaStep_elitism popW 2 [0] dimsTen 1 1 0 0 rngZero rfl (le_refl 2) heval⟩

/-! ### Degenerate population sizes panic (C10) -/

theorem reproduceAux_empty_elites (all_images : List Nat)
    (min_images max_images : Nat) (mutation_rate crossover_rate : ℚ)
    (population_size : Nat) (acc : List Individual) (r : Rng)
    (h : acc.length < population_size) :
    reproduceAux [] all_images min_images max_images mutation_rate
      crossover_rate population_size acc r = .error .unwrapFailed := by
  unfold reproduceAux
  rw [dif_pos h]
  rfl

theorem gaStep_singleton (x : Individual) (all_images : List Nat)
    (dims : Nat → Nat × Nat) (min_images max_images : Nat)
    (mutation_rate crossover_rate : ℚ) (r : Rng) :
    gaStep [x] 1 all_images dims min_images max_images mutation_rate
      crossover_rate r = .error .unwrapFailed := by
  unfold gaStep
  rw [show sortByFitnessDesc [x] = [x] from List.mergeSort_singleton x]
  dsimp only
  have ht : List.take (1 / 2) [x] = ([] : List Individual) := rfl
  rw [ht, reproduceAux_empty_elites all_images min_images max_images
    mutation_rate crossover_rate 1 [] r (by simp)]

theorem gaStep_nil (population_size : Nat) (all_images : List Nat)
    (dims : Nat → Nat × Nat) (min_images max_images : Nat)
    (mutation_rate crossover_rate : ℚ) (r : Rng) :
    gaStep [] population_size all_images dims min_images max_images
      mutation_rate crossover_rate r = .error .indexOutOfBounds := by
  unfold gaStep
  rw [show sortByFitnessDesc ([] : List Individual) = [] from
    List.mergeSort_nil]

/-- Claim C10 (amended): with a non-empty corpus and at least one generation,
a run with `population_size = 1` panics in the reproduction step — the elite
slice `population[..population_size/2]` is empty, `elites.choose` returns
`None`, and the `unwrap` fails — producing no layout and no failure value.
With `population_size = 0` the run instead panics earlier, indexing
`population[0]` on the empty population at the per-generation report.  With
`generations = 0` a `population_size = 1` run does not panic at all (the
reproduction step never executes). -/
theorem gaRun_degenerate (all_images : List Nat) (dims : Nat → Nat × Nat)
    (generations min_images max_images : Nat)
    (mutation_rate crossover_rate : ℚ) (r : Rng)
    (hne : all_images ≠ []) (hg : 1 ≤ generations) :
    gaRun all_images dims 1 generations min_images max_images mutation_rate
      crossover_rate r = .error .unwrapFailed ∧
    gaRun all_images dims 0 generations min_images max_images mutation_rate
      crossover_rate r = .error .indexOutOfBounds := by
  obtain ⟨g, rfl⟩ : ∃ g, generations = g + 1 := ⟨generations - 1, by omega⟩
  constructor
  · unfold gaRun
    rw [if_neg (by simpa [List.isEmpty_iff] using hne)]
    dsimp only
    simp only [initPop]
    simp only [List.map_cons, List.map_nil, runGens]
    rw [gaStep_singleton]
  · unfold gaRun
    rw [if_neg (by simpa [List.isEmpty_iff] using hne)]
    dsimp only
    simp only [initPop]
    simp only [List.map_nil, runGens]
    rw [gaStep_nil]

/-- Counterexample for C10 as stated: a `population_size = 1` run with
`generations = 0` completes normally and outputs a layout — no panic occurs
anywhere, refuting "every run with population_size ≤ 1 panics in the
reproduction step". -/
theorem gaRun_degenerate_counterexample :
    gaRun [0] dimsTen 1 0 1 1 0 0 rngZero =
      .ok (some ([(0, ⟨0, 0, 10, 10⟩)], 10, 10)) := by
  unfold gaRun
  rw [if_neg (by simp)]
  dsimp only
  simp only [initPop]
  simp only [List.map_cons, List.map_nil, runGens]
  rw [show ∀ y : Individual, sortByFitnessDesc [y] = [y] from
    fun y => List.mergeSort_singleton y]
  rfl

/-- Witness for the amended C10 at a concrete corpus and stream. -/
theorem gaRun_degenerate_witness :
    ([0] : List Nat) ≠ [] ∧ 1 ≤ 1 ∧
    gaRun [0] dimsTen 1 1 1 1 0 0 rngZero = .error .unwrapFailed ∧
    gaRun [0] dimsTen 0 1 1 1 0 0 rngZero = .error .indexOutOfBounds :=
  ⟨by decide, le_refl 1,
    gaRun_degenerate [0] dimsTen 1 1 1 0 0 rngZero (by decide) (le_refl 1)⟩
